import Mathlib

/-!
Shallow embedding of the randomized-eviction signature cache implemented in
txscript/sigcache_xor_eviction.go.

Modeling decisions, at the boundaries of the file under verification:

* wire.ShaHash (a 32-byte array) is a list of byte values; the Go zero value
  of the type is the all-zero hash.
* The Go map validSigs is an association list with unique keys; the list
  order is the map's (unspecified) iteration order, and map assignment
  overwrites in place or appends.
* btcec.Signature and btcec.PublicKey are opaque equality-comparable
  capabilities, so the cache is parametrized over the two types.
* The external github.com/lazybeaver/xorshift generator is deterministic:
  each Next() call mutates internal state and returns 64 bits. It is modeled
  at its boundary by its output stream g : Nat -> Nat together with a counter
  rngCount of how many Next() calls have been made; draw number k returns
  g k and advances the counter to k + 1.
* crypto/rand.Read on an 8-byte buffer is a capability that, asked for n
  bytes, either fails or returns exactly n bytes (the io.ReadFull contract
  of crypto/rand).
-/

/-- A 32-byte hash value (wire.ShaHash), as a list of byte values. -/
abbrev ShaHash := List Nat

/-- The all-zero hash: the Go zero value of wire.ShaHash. -/
def zeroHash : ShaHash := List.replicate 32 0

/-- Go bytes.Compare: byte-lexicographic three-way comparison, a shorter
prefix comparing less than any extension. -/
def bytesCompare : List Nat → List Nat → Ordering
  | [], [] => Ordering.eq
  | [], _ :: _ => Ordering.lt
  | _ :: _, [] => Ordering.gt
  | a :: as, b :: bs =>
      if a < b then Ordering.lt
      else if b < a then Ordering.gt
      else bytesCompare as bs

/-- binary.BigEndian.PutUint64: the 8 big-endian bytes of a 64-bit value
(a wider Nat is reduced mod 2 ^ 64, as the uint64 conversion would). -/
def be64 (v : Nat) : List Nat :=
  [v / 2 ^ 56 % 256, v / 2 ^ 48 % 256, v / 2 ^ 40 % 256, v / 2 ^ 32 % 256,
   v / 2 ^ 24 % 256, v / 2 ^ 16 % 256, v / 2 ^ 8 % 256, v % 256]

/-- binary.BigEndian.Uint64: big-endian decoding of 8 bytes. -/
def beUint64 (bs : List Nat) : Nat := bs.foldl (fun acc b => acc * 256 + b) 0

/-- sigCacheEntry: a verified signature together with its public key. -/
structure SigCacheEntry (Sig Pub : Type) where
  sig : Sig
  pubKey : Pub

deriving instance DecidableEq for SigCacheEntry

/-- SigCacheXor: the signature cache state. validSigs is the Go map (kept in
iteration order), maxEntries the capacity, seed the value the xorshift
generator was seeded with, and rngCount the number of Next() calls made so
far on the generator. -/
structure SigCacheXor (Sig Pub : Type) where
  validSigs : List (ShaHash × SigCacheEntry Sig Pub)
  maxEntries : Nat
  seed : Nat
  rngCount : Nat

deriving instance DecidableEq for SigCacheXor

variable {Sig Pub : Type}

/-- Go map lookup: validSigs[sigHash]. -/
def mapLookup (k : ShaHash) :
    List (ShaHash × SigCacheEntry Sig Pub) → Option (SigCacheEntry Sig Pub)
  | [] => none
  | (k', v) :: rest => if k' = k then some v else mapLookup k rest

/-- Go map assignment validSigs[k] = v: overwrite the entry for k in place
when the key is present, append a new entry otherwise. -/
def mapInsert (k : ShaHash) (v : SigCacheEntry Sig Pub) :
    List (ShaHash × SigCacheEntry Sig Pub) → List (ShaHash × SigCacheEntry Sig Pub)
  | [] => [(k, v)]
  | (k', v') :: rest =>
      if k' = k then (k, v) :: rest else (k', v') :: mapInsert k v rest

/-- Go delete(validSigs, k): remove the entry for k, if any. -/
def mapDelete (k : ShaHash) :
    List (ShaHash × SigCacheEntry Sig Pub) → List (ShaHash × SigCacheEntry Sig Pub)
  | [] => []
  | (k', v) :: rest =>
      if k' = k then mapDelete k rest else (k', v) :: mapDelete k rest

/-- The 32 random bytes built in Add by 4 successive generator draws starting
at draw number k, each written big-endian into the next 8 bytes. -/
def randHashBytes (g : Nat → Nat) (k : Nat) : List Nat :=
  be64 (g k) ++ be64 (g (k + 1)) ++ be64 (g (k + 2)) ++ be64 (g (k + 3))

/-- The victim-selection loop of Add: foundEntry starts as the zero value;
each visited key overwrites it while it still equals the zero value; the
first key comparing greater than the random hash is returned at once. -/
def evictLoop (randHash : List Nat) : List ShaHash → ShaHash → ShaHash
  | [], foundEntry => foundEntry
  | k :: rest, foundEntry =>
      let found1 := if foundEntry = zeroHash then k else foundEntry
      if bytesCompare k randHash = Ordering.gt then k
      else evictLoop randHash rest found1

/-- The eviction step of Add (lines 92 to 115): draw the random hash with 4
generator calls, run the selection loop over the map keys, delete the
selected key. -/
def SigCacheXor.evictOne (g : Nat → Nat) (s : SigCacheXor Sig Pub) :
    SigCacheXor Sig Pub :=
  let randHash := randHashBytes g s.rngCount
  let victim := evictLoop randHash (s.validSigs.map Prod.fst) zeroHash
  { s with validSigs := mapDelete victim s.validSigs, rngCount := s.rngCount + 4 }

/-- Add: no-op when maxEntries is 0; evict one entry when the map would
exceed maxEntries; then store the new entry. -/
def SigCacheXor.Add (g : Nat → Nat) (s : SigCacheXor Sig Pub) (sigHash : ShaHash)
    (sig : Sig) (pubKey : Pub) : SigCacheXor Sig Pub :=
  if s.maxEntries ≤ 0 then s
  else
    let s1 := if s.validSigs.length + 1 > s.maxEntries then s.evictOne g else s
    { s1 with validSigs := mapInsert sigHash ⟨sig, pubKey⟩ s1.validSigs }

/-- Exists: look the hash up and compare the stored signature and public key
with the supplied ones. The Go function only reads the map under a shared
lock, so it is a pure function of the state. -/
def SigCacheXor.Exists [DecidableEq Sig] [DecidableEq Pub]
    (s : SigCacheXor Sig Pub) (sigHash : ShaHash) (sig : Sig) (pubKey : Pub) : Bool :=
  match mapLookup sigHash s.validSigs with
  | some entry => decide (entry.pubKey = pubKey) && decide (entry.sig = sig)
  | none => false

/-- A secure entropy source at its boundary: asked for n bytes it either
fails or returns the bytes read (crypto/rand.Read fills the buffer entirely
whenever it does not report an error). -/
def EntropySource := Nat → Except String (List Nat)

/-- NewSigCacheXor: allocate the empty map, draw 8 bytes from the entropy
source, fail if the read failed, otherwise seed the generator with the
big-endian decoding of the 8 bytes and store maxEntries unchanged. -/
def NewSigCacheXor (entropy : EntropySource) (maxEntries : Nat) :
    Except String (SigCacheXor Sig Pub) :=
  match entropy 8 with
  | Except.error e => Except.error e
  | Except.ok seedBytes =>
      Except.ok { validSigs := [], maxEntries := maxEntries,
                  seed := beUint64 seedBytes, rngCount := 0 }

/-- The state of a freshly constructed cache. -/
def initialCache (seed : Nat) (maxEntries : Nat) : SigCacheXor Sig Pub :=
  { validSigs := [], maxEntries := maxEntries, seed := seed, rngCount := 0 }

/-- Apply a sequence of Add calls in order. -/
def applyAdds (g : Nat → Nat) (s : SigCacheXor Sig Pub) :
    List (ShaHash × Sig × Pub) → SigCacheXor Sig Pub
  | [] => s
  | (h, sg, pk) :: rest => applyAdds g (s.Add g h sg pk) rest

/-- A concrete nonzero hash: 31 zero bytes then 1. -/
def hashA : ShaHash := List.replicate 31 0 ++ [1]

/-- A concrete nonzero hash: 31 zero bytes then 2. -/
def hashB : ShaHash := List.replicate 31 0 ++ [2]

/-- A concrete nonzero hash: 31 zero bytes then 3. -/
def hashC : ShaHash := List.replicate 31 0 ++ [3]

/-- A generator stream that always draws 0. -/
def gZero : Nat → Nat := fun _ => 0

/-- A generator stream that always draws the all-ones 64-bit value, making
the random hash larger than every stored key used here. -/
def gMax : Nat → Nat := fun _ => 18446744073709551615

/-- A concrete cache at capacity 2 whose first key in iteration order is the
all-zero hash. -/
def stZeroFirst : SigCacheXor Nat Nat :=
  { validSigs := [(zeroHash, ⟨1, 2⟩), (hashA, ⟨3, 4⟩)], maxEntries := 2,
    seed := 0, rngCount := 0 }

/-- A concrete cache at capacity 1 holding one entry. -/
def stFull : SigCacheXor Nat Nat :=
  { validSigs := [(hashA, ⟨1, 2⟩)], maxEntries := 1, seed := 0, rngCount := 0 }

/-- A concrete cache at capacity 2 holding two entries. -/
def stTwo : SigCacheXor Nat Nat :=
  { validSigs := [(hashB, ⟨5, 6⟩), (hashA, ⟨1, 2⟩)], maxEntries := 2,
    seed := 0, rngCount := 0 }

/-- A concrete cache at capacity 2 holding one entry (room to spare). -/
def stRoom : SigCacheXor Nat Nat :=
  { validSigs := [(hashA, ⟨1, 2⟩)], maxEntries := 2, seed := 0, rngCount := 0 }

/-- An entropy source that returns n bytes of value 7 when asked for n. -/
def entropyOk : EntropySource := fun n => Except.ok (List.replicate n 7)

/-- An entropy source whose reads always fail. -/
def entropyErr : EntropySource := fun _ => Except.error "eof"

example :
    (SigCacheXor.Add (fun _ => 0)
      (initialCache 0 2) (List.replicate 31 0 ++ [1]) (1 : Nat) (2 : Nat)).validSigs
    = [(List.replicate 31 0 ++ [1], ⟨1, 2⟩)] := by decide

/-! Helper lemmas about the map operations. -/

theorem mapInsert_length_le (k : ShaHash) (v : SigCacheEntry Sig Pub)
    (l : List (ShaHash × SigCacheEntry Sig Pub)) :
    (mapInsert k v l).length ≤ l.length + 1 := by
  induction l with
  | nil => simp [mapInsert]
  | cons p rest ih =>
      obtain ⟨k', v'⟩ := p
      by_cases h : k' = k
      · simp [mapInsert, h]
      · simp only [mapInsert, if_neg h, List.length_cons]
        omega

theorem mapInsert_length_of_not_mem {k : ShaHash} {v : SigCacheEntry Sig Pub}
    {l : List (ShaHash × SigCacheEntry Sig Pub)} (hk : k ∉ l.map Prod.fst) :
    (mapInsert k v l).length = l.length + 1 := by
  induction l with
  | nil => simp [mapInsert]
  | cons p rest ih =>
      obtain ⟨k', v'⟩ := p
      simp only [List.map_cons, List.mem_cons] at hk
      push_neg at hk
      have hne : ¬ (k' = k) := fun h => hk.1 h.symm
      simp [mapInsert, hne, ih hk.2]

theorem mapLookup_mapInsert_self (k : ShaHash) (v : SigCacheEntry Sig Pub)
    (l : List (ShaHash × SigCacheEntry Sig Pub)) :
    mapLookup k (mapInsert k v l) = some v := by
  induction l with
  | nil => simp [mapInsert, mapLookup]
  | cons p rest ih =>
      obtain ⟨k', v'⟩ := p
      by_cases h : k' = k <;> simp [mapInsert, mapLookup, h, ih]

theorem mapInsert_of_lookup_eq {k : ShaHash} {v : SigCacheEntry Sig Pub}
    {l : List (ShaHash × SigCacheEntry Sig Pub)} (hl : mapLookup k l = some v) :
    mapInsert k v l = l := by
  induction l with
  | nil => simp [mapLookup] at hl
  | cons p rest ih =>
      obtain ⟨k', v'⟩ := p
      by_cases h : k' = k
      · simp only [mapLookup, if_pos h] at hl
        obtain rfl := Option.some_injective _ hl
        simp [mapInsert, h]
      · simp only [mapLookup, if_neg h] at hl
        simp [mapInsert, h, ih hl]

theorem mapDelete_sublist (k : ShaHash) (l : List (ShaHash × SigCacheEntry Sig Pub)) :
    (mapDelete k l).Sublist l := by
  induction l with
  | nil => exact List.Sublist.refl []
  | cons p rest ih =>
      obtain ⟨k', v'⟩ := p
      by_cases h : k' = k
      · simp only [mapDelete, if_pos h]
        exact ih.cons (k', v')
      · simp only [mapDelete, if_neg h]
        exact ih.cons₂ (k', v')

theorem mapDelete_length_lt {k : ShaHash} {l : List (ShaHash × SigCacheEntry Sig Pub)}
    (hk : k ∈ l.map Prod.fst) : (mapDelete k l).length < l.length := by
  induction l with
  | nil => simp at hk
  | cons p rest ih =>
      obtain ⟨k', v'⟩ := p
      simp only [List.map_cons, List.mem_cons] at hk
      by_cases h : k' = k
      · have hle : (mapDelete k rest).length ≤ rest.length :=
          (mapDelete_sublist k rest).length_le
        simp only [mapDelete, if_pos h, List.length_cons]
        omega
      · rcases hk with hk | hk
        · exact absurd hk.symm h
        · have := ih hk
          simp only [mapDelete, if_neg h, List.length_cons]
          omega

theorem mapDelete_of_not_mem {k : ShaHash} {l : List (ShaHash × SigCacheEntry Sig Pub)}
    (hk : k ∉ l.map Prod.fst) : mapDelete k l = l := by
  induction l with
  | nil => rfl
  | cons p rest ih =>
      obtain ⟨k', v'⟩ := p
      simp only [List.map_cons, List.mem_cons] at hk
      push_neg at hk
      have hne : ¬ (k' = k) := fun h => hk.1 h.symm
      simp only [mapDelete, if_neg hne]
      rw [ih hk.2]

theorem mapDelete_length_of_nodup {k : ShaHash}
    {l : List (ShaHash × SigCacheEntry Sig Pub)}
    (hnd : (l.map Prod.fst).Nodup) (hk : k ∈ l.map Prod.fst) :
    (mapDelete k l).length + 1 = l.length := by
  induction l with
  | nil => simp at hk
  | cons p rest ih =>
      obtain ⟨k', v'⟩ := p
      simp only [List.map_cons, List.nodup_cons] at hnd
      simp only [List.map_cons, List.mem_cons] at hk
      by_cases h : k' = k
      · subst h
        have hrest : mapDelete k' rest = rest := mapDelete_of_not_mem hnd.1
        simp [mapDelete, hrest]
      · rcases hk with hk | hk
        · exact absurd hk.symm h
        · have := ih hnd.2 hk
          simp only [mapDelete, if_neg h, List.length_cons]
          omega

/-! Helper lemmas about the eviction loop and the Add branches. -/

theorem evictLoop_mem_of_mem {r : List Nat} {S : List ShaHash} :
    ∀ (keys : List ShaHash) (found : ShaHash), found ∈ S →
      (∀ x ∈ keys, x ∈ S) → evictLoop r keys found ∈ S := by
  intro keys
  induction keys with
  | nil => intro found hf _; simpa [evictLoop] using hf
  | cons k rest ih =>
      intro found hf hks
      simp only [evictLoop]
      by_cases hgt : bytesCompare k r = Ordering.gt
      · simp only [if_pos hgt]
        exact hks k (List.mem_cons_self k rest)
      · simp only [if_neg hgt]
        by_cases hz : found = zeroHash
        · simp only [if_pos hz]
          exact ih k (hks k (List.mem_cons_self k rest))
            (fun x hx => hks x (List.mem_cons_of_mem k hx))
        · simp only [if_neg hz]
          exact ih found hf (fun x hx => hks x (List.mem_cons_of_mem k hx))

theorem evictLoop_cons_mem (r : List Nat) (k : ShaHash) (rest : List ShaHash) :
    evictLoop r (k :: rest) zeroHash ∈ k :: rest := by
  simp only [evictLoop, if_pos rfl]
  by_cases hgt : bytesCompare k r = Ordering.gt
  · simp only [if_pos hgt]
    exact List.mem_cons_self k rest
  · simp only [if_neg hgt]
    exact evictLoop_mem_of_mem rest k (List.mem_cons_self k rest)
      (fun x hx => List.mem_cons_of_mem k hx)

theorem Add_eq_of_max_zero {s : SigCacheXor Sig Pub} (h0 : s.maxEntries = 0)
    (g : Nat → Nat) (sigHash : ShaHash) (sig : Sig) (pubKey : Pub) :
    s.Add g sigHash sig pubKey = s := by
  simp [SigCacheXor.Add, h0]

theorem Add_eq_no_evict {s : SigCacheXor Sig Pub} (h0 : 0 < s.maxEntries)
    (hlen : s.validSigs.length + 1 ≤ s.maxEntries)
    (g : Nat → Nat) (sigHash : ShaHash) (sig : Sig) (pubKey : Pub) :
    s.Add g sigHash sig pubKey =
      { s with validSigs := mapInsert sigHash ⟨sig, pubKey⟩ s.validSigs } := by
  have h1 : ¬ s.maxEntries ≤ 0 := by omega
  have h2 : ¬ s.validSigs.length + 1 > s.maxEntries := by omega
  simp [SigCacheXor.Add, h1, h2]

theorem Add_eq_evict {s : SigCacheXor Sig Pub} (h0 : 0 < s.maxEntries)
    (hlen : s.validSigs.length + 1 > s.maxEntries)
    (g : Nat → Nat) (sigHash : ShaHash) (sig : Sig) (pubKey : Pub) :
    s.Add g sigHash sig pubKey =
      { s.evictOne g with
        validSigs := mapInsert sigHash ⟨sig, pubKey⟩ (s.evictOne g).validSigs } := by
  have h1 : ¬ s.maxEntries ≤ 0 := by omega
  simp [SigCacheXor.Add, h1, hlen]

theorem evictOne_maxEntries (g : Nat → Nat) (s : SigCacheXor Sig Pub) :
    (s.evictOne g).maxEntries = s.maxEntries := rfl

theorem Add_maxEntries (g : Nat → Nat) (s : SigCacheXor Sig Pub)
    (sigHash : ShaHash) (sig : Sig) (pubKey : Pub) :
    (s.Add g sigHash sig pubKey).maxEntries = s.maxEntries := by
  rcases Nat.eq_zero_or_pos s.maxEntries with h0 | h0
  · rw [Add_eq_of_max_zero h0]
  · by_cases hlen : s.validSigs.length + 1 > s.maxEntries
    · rw [Add_eq_evict h0 hlen]
      rfl
    · rw [Add_eq_no_evict h0 (by omega)]

theorem evictOne_length_lt {s : SigCacheXor Sig Pub} (g : Nat → Nat)
    (hne : s.validSigs ≠ []) :
    (s.evictOne g).validSigs.length < s.validSigs.length := by
  obtain ⟨p, rest, hcons⟩ := List.exists_cons_of_ne_nil hne
  have hkeys : s.validSigs.map Prod.fst = p.1 :: rest.map Prod.fst := by
    rw [hcons]; rfl
  have hmem : evictLoop (randHashBytes g s.rngCount) (s.validSigs.map Prod.fst) zeroHash
      ∈ s.validSigs.map Prod.fst := by
    rw [hkeys]; exact evictLoop_cons_mem _ _ _
  exact mapDelete_length_lt hmem

theorem Add_length_le {s : SigCacheXor Sig Pub} (g : Nat → Nat)
    (sigHash : ShaHash) (sig : Sig) (pubKey : Pub)
    (hinv : s.validSigs.length ≤ s.maxEntries) :
    (s.Add g sigHash sig pubKey).validSigs.length ≤ s.maxEntries := by
  rcases Nat.eq_zero_or_pos s.maxEntries with h0 | h0
  · rw [Add_eq_of_max_zero h0]; omega
  · by_cases hlen : s.validSigs.length + 1 > s.maxEntries
    · rw [Add_eq_evict h0 hlen]
      have hne : s.validSigs ≠ [] := by
        intro h
        rw [h] at hlen
        simp at hlen
        omega
      have hlt := evictOne_length_lt g hne
      have hle := mapInsert_length_le sigHash ⟨sig, pubKey⟩ (s.evictOne g).validSigs
      simp only at hle ⊢
      omega
    · rw [Add_eq_no_evict h0 (by omega)]
      have hle := mapInsert_length_le sigHash ⟨sig, pubKey⟩ s.validSigs
      simp only at hle ⊢
      omega

theorem applyAdds_length_le {s : SigCacheXor Sig Pub} (g : Nat → Nat)
    (ops : List (ShaHash × Sig × Pub)) (hinv : s.validSigs.length ≤ s.maxEntries) :
    (applyAdds g s ops).validSigs.length ≤ (applyAdds g s ops).maxEntries ∧
      (applyAdds g s ops).maxEntries = s.maxEntries := by
  induction ops generalizing s with
  | nil => exact ⟨hinv, rfl⟩
  | cons op rest ih =>
      obtain ⟨h, sg, pk⟩ := op
      have h1 : (s.Add g h sg pk).validSigs.length ≤ (s.Add g h sg pk).maxEntries := by
        rw [Add_maxEntries]
        exact Add_length_le g h sg pk hinv
      obtain ⟨ha, hb⟩ := ih h1
      simp only [applyAdds]
      exact ⟨ha, by rw [hb, Add_maxEntries]⟩

/-- C1: for every capacity C greater than 0 and every sequence of insert
calls with arbitrary hashes, signatures and public keys, after each insert
completes the number of entries in the cache is at most C. -/
theorem C1_capacity_invariant {Sg Pb : Type} (C : Nat) (_hC : 0 < C) (seed : Nat)
    (g : Nat → Nat) (ops : List (ShaHash × Sg × Pb)) :
    (applyAdds g (initialCache seed C) ops).validSigs.length ≤ C := by
  have := applyAdds_length_le (s := initialCache seed C) g ops (by simp [initialCache])
  calc (applyAdds g (initialCache seed C) ops).validSigs.length
      ≤ (applyAdds g (initialCache seed C) ops).maxEntries := this.1
    _ = C := this.2

/-- Witness for C1 at capacity 1 and a concrete two-insert sequence. -/
theorem C1_capacity_invariant_witness :
    (applyAdds (fun _ => 0) (initialCache 0 1)
      [(List.replicate 31 0 ++ [1], (1 : Nat), (2 : Nat)),
       (List.replicate 31 0 ++ [2], 3, 4)]).validSigs.length ≤ 1 :=
  C1_capacity_invariant 1 (by decide) 0 (fun _ => 0) _

theorem evictLoop_mem_of_ne_nil {r : List Nat} {keys : List ShaHash}
    (h : keys ≠ []) : evictLoop r keys zeroHash ∈ keys := by
  obtain ⟨k, rest, rfl⟩ := List.exists_cons_of_ne_nil h
  exact evictLoop_cons_mem r k rest

theorem evictOne_validSigs_eq (g : Nat → Nat) (s : SigCacheXor Sig Pub) :
    (s.evictOne g).validSigs =
      mapDelete
        (evictLoop (randHashBytes g s.rngCount) (s.validSigs.map Prod.fst) zeroHash)
        s.validSigs := rfl

theorem map_fst_ne_nil {l : List (ShaHash × SigCacheEntry Sig Pub)}
    (h : l ≠ []) : l.map Prod.fst ≠ [] := by
  intro hmap
  exact h (List.map_eq_nil_iff.mp hmap)

theorem evictOne_length_of_nodup {s : SigCacheXor Sig Pub} (g : Nat → Nat)
    (hnd : (s.validSigs.map Prod.fst).Nodup) (hne : s.validSigs ≠ []) :
    (s.evictOne g).validSigs.length + 1 = s.validSigs.length := by
  rw [evictOne_validSigs_eq]
  exact mapDelete_length_of_nodup hnd (evictLoop_mem_of_ne_nil (map_fst_ne_nil hne))

theorem applyAdds_max_zero {s : SigCacheXor Sig Pub} (hmax : s.maxEntries = 0)
    (g : Nat → Nat) (ops : List (ShaHash × Sig × Pub)) : applyAdds g s ops = s := by
  induction ops with
  | nil => rfl
  | cons op rest ih =>
      obtain ⟨h, sg, pk⟩ := op
      simp only [applyAdds, Add_eq_of_max_zero hmax]
      exact ih

/-- C3: at capacity C with C entries and duplicate-free keys, inserting a
genuinely new key leaves exactly C entries; and every invocation of the
eviction procedure on a nonempty map deletes exactly one entry (the state
loses exactly one entry and gains none). -/
theorem C3_eviction_count {Sg Pb : Type} (g : Nat → Nat) (s : SigCacheXor Sg Pb)
    (hnd : (s.validSigs.map Prod.fst).Nodup) :
    (∀ (h : ShaHash) (sg : Sg) (pk : Pb), 0 < s.maxEntries →
        s.validSigs.length = s.maxEntries → h ∉ s.validSigs.map Prod.fst →
        (s.Add g h sg pk).validSigs.length = s.maxEntries) ∧
    (s.validSigs ≠ [] →
        (s.evictOne g).validSigs.length + 1 = s.validSigs.length ∧
        (s.evictOne g).validSigs.Sublist s.validSigs) := by
  constructor
  · intro h sg pk hpos hfull hnew
    have hlen : s.validSigs.length + 1 > s.maxEntries := by omega
    rw [Add_eq_evict hpos hlen]
    have hne : s.validSigs ≠ [] := by
      intro hnil
      rw [hnil] at hfull
      simp at hfull
      omega
    have hevict := evictOne_length_of_nodup g hnd hne
    have hsub : ((s.evictOne g).validSigs.map Prod.fst).Sublist
        (s.validSigs.map Prod.fst) := by
      rw [evictOne_validSigs_eq]
      exact (mapDelete_sublist _ _).map Prod.fst
    have hnew' : h ∉ (s.evictOne g).validSigs.map Prod.fst :=
      fun hmem => hnew (hsub.mem hmem)
    have := mapInsert_length_of_not_mem (v := ⟨sg, pk⟩) hnew'
    simp only at this ⊢
    omega
  · intro hne
    exact ⟨evictOne_length_of_nodup g hnd hne,
      by rw [evictOne_validSigs_eq]; exact mapDelete_sublist _ _⟩

/-- Witness for C3 on a concrete full cache of capacity 1. -/
theorem C3_eviction_count_witness :
    ((stFull.Add gZero hashB 3 4).validSigs.length = stFull.maxEntries) ∧
    ((stFull.evictOne gZero).validSigs.length + 1 = stFull.validSigs.length ∧
      (stFull.evictOne gZero).validSigs.Sublist stFull.validSigs) :=
  ⟨(C3_eviction_count gZero stFull (by decide)).1 hashB 3 4 (by decide) (by decide)
      (by decide),
   (C3_eviction_count gZero stFull (by decide)).2 (by decide)⟩

/-- C4: Exists returns true exactly when the hash is present and the stored
public key and signature both equal the supplied ones; an absent hash or a
mismatching stored pair yields false. Exists is a pure function of the
state, so it mutates nothing. -/
theorem C4_exists_spec {Sg Pb : Type} [DecidableEq Sg] [DecidableEq Pb]
    (s : SigCacheXor Sg Pb) (h : ShaHash) (sig : Sg) (pk : Pb) :
    s.Exists h sig pk = true ↔
      ∃ e, mapLookup h s.validSigs = some e ∧ e.pubKey = pk ∧ e.sig = sig := by
  unfold SigCacheXor.Exists
  cases hl : mapLookup h s.validSigs with
  | none => simp
  | some e => simp

/-- C6: with capacity 0, after any number of inserts the entry map is empty
and Exists always returns false. -/
theorem C6_zero_capacity {Sg Pb : Type} [DecidableEq Sg] [DecidableEq Pb]
    (seed : Nat) (g : Nat → Nat) (ops : List (ShaHash × Sg × Pb))
    (h : ShaHash) (sig : Sg) (pk : Pb) :
    (applyAdds g (initialCache seed 0) ops).validSigs = [] ∧
    (applyAdds g (initialCache seed 0) ops).Exists h sig pk = false := by
  rw [applyAdds_max_zero rfl]
  exact ⟨rfl, rfl⟩

/-- C9: with capacity at least 1, immediately after Add the supplied hash
maps to exactly the supplied signature and public key. -/
theorem C9_inserted_entry_present {Sg Pb : Type} (g : Nat → Nat)
    (s : SigCacheXor Sg Pb) (h : ShaHash) (sig : Sg) (pk : Pb)
    (hmax : 1 ≤ s.maxEntries) :
    mapLookup h (s.Add g h sig pk).validSigs = some ⟨sig, pk⟩ := by
  by_cases hlen : s.validSigs.length + 1 > s.maxEntries
  · rw [Add_eq_evict hmax hlen]
    exact mapLookup_mapInsert_self h ⟨sig, pk⟩ _
  · rw [Add_eq_no_evict hmax (by omega)]
    exact mapLookup_mapInsert_self h ⟨sig, pk⟩ _

/-- Witness for C9 on a concrete full cache of capacity 1, where the insert
itself performs an eviction. -/
theorem C9_inserted_entry_present_witness :
    mapLookup hashB (stFull.Add gZero hashB 3 4).validSigs = some ⟨3, 4⟩ :=
  C9_inserted_entry_present gZero stFull hashB 3 4 (by decide)

/-- Counterexample to C5: at capacity, re-inserting the already-present
triple (hashA, 1, 2) still triggers the eviction path, which here evicts the
other key hashB, so the number of entries drops from 2 to 1 and the
generator is consumed. -/
theorem C5_counterexample :
    mapLookup hashA stTwo.validSigs = some ⟨1, 2⟩ ∧
    (stTwo.Add gZero hashA 1 2).validSigs.length ≠ stTwo.validSigs.length ∧
    (stTwo.Add gZero hashA 1 2).rngCount ≠ stTwo.rngCount := by decide

/-- C5 (amended): re-inserting an already-present triple while the map is
strictly below capacity changes nothing at all: the resulting state is the
old state, so the entry count is unchanged, no eviction runs, and a second
identical insert equals a single one. At capacity the insert does run the
eviction path. -/
theorem C5_idempotent_below_capacity {Sg Pb : Type} (g : Nat → Nat)
    (s : SigCacheXor Sg Pb) (h : ShaHash) (sig : Sg) (pk : Pb)
    (hpresent : mapLookup h s.validSigs = some ⟨sig, pk⟩)
    (hroom : s.validSigs.length < s.maxEntries) :
    s.Add g h sig pk = s ∧
      (s.Add g h sig pk).Add g h sig pk = s.Add g h sig pk := by
  have h1 : s.Add g h sig pk = s := by
    rw [Add_eq_no_evict (by omega) (by omega)]
    rw [mapInsert_of_lookup_eq hpresent]
  exact ⟨h1, by rw [h1]; exact h1⟩

/-- Witness for the amended C5 on a concrete below-capacity cache. -/
theorem C5_idempotent_below_capacity_witness :
    stRoom.Add gZero hashA 1 2 = stRoom ∧
      (stRoom.Add gZero hashA 1 2).Add gZero hashA 1 2 = stRoom.Add gZero hashA 1 2 :=
  C5_idempotent_below_capacity gZero stRoom hashA 1 2 (by decide) (by decide)

/-- C7: construction propagates an entropy-read failure and returns no
cache; on a successful 8-byte read it returns the empty cache with the
capacity stored unchanged (including 0) and the generator seeded with the
big-endian decoding of the 8 bytes. -/
theorem C7_construction {Sg Pb : Type} (entropy : EntropySource) (C : Nat) :
    (∀ e, entropy 8 = Except.error e →
        @NewSigCacheXor Sg Pb entropy C = Except.error e) ∧
    (∀ bs, entropy 8 = Except.ok bs →
        @NewSigCacheXor Sg Pb entropy C =
          Except.ok { validSigs := [], maxEntries := C,
                      seed := beUint64 bs, rngCount := 0 }) := by
  constructor
  · intro e he
    simp [NewSigCacheXor, he]
  · intro bs hbs
    simp [NewSigCacheXor, hbs]

/-- Witness for C7: a failing entropy source fails construction, and a
successful one yields the empty cache, with the degenerate capacity 0 stored
unchanged. -/
theorem C7_construction_witness :
    @NewSigCacheXor Nat Nat entropyErr 5 = Except.error "eof" ∧
    @NewSigCacheXor Nat Nat entropyOk 0 =
      Except.ok { validSigs := [], maxEntries := 0,
                  seed := beUint64 (List.replicate 8 7), rngCount := 0 } :=
  ⟨(C7_construction entropyErr 5).1 "eof" rfl,
   (C7_construction entropyOk 0).2 (List.replicate 8 7) rfl⟩

/-- Counterexample to C8: one eviction decision makes four generator draws,
not one: on a full capacity-1 cache an insert of a new key advances the
draw counter from 0 to 4. -/
theorem C8_counterexample :
    (stFull.Add gZero hashB 3 4).rngCount = stFull.rngCount + 4 ∧
    stFull.rngCount + 4 ≠ stFull.rngCount + 1 := by decide

/-- C8 (amended): the generator is advanced exactly four times (four 64-bit
draws) per eviction decision, and is not advanced by an insert that does not
trigger eviction; Exists is a pure function of the state and touches the
generator state not at all. -/
theorem C8_rng_advance {Sg Pb : Type} (g : Nat → Nat) (s : SigCacheXor Sg Pb)
    (h : ShaHash) (sig : Sg) (pk : Pb) :
    (s.Add g h sig pk).rngCount =
      if 0 < s.maxEntries ∧ s.validSigs.length + 1 > s.maxEntries
      then s.rngCount + 4 else s.rngCount := by
  rcases Nat.eq_zero_or_pos s.maxEntries with h0 | h0
  · rw [Add_eq_of_max_zero h0]
    have : ¬ (0 < s.maxEntries ∧ s.validSigs.length + 1 > s.maxEntries) := by
      omega
    rw [if_neg this]
  · by_cases hlen : s.validSigs.length + 1 > s.maxEntries
    · rw [Add_eq_evict h0 hlen, if_pos ⟨h0, hlen⟩]
      rfl
    · rw [Add_eq_no_evict h0 (by omega)]
      have : ¬ (0 < s.maxEntries ∧ s.validSigs.length + 1 > s.maxEntries) := by
        omega
      rw [if_neg this]

/-- C2 at the failing input: in stZeroFirst the first key in iteration order
is the all-zero hash, the drawn random hash (all 255 bytes) compares at
least as large as every key, yet the insert of hashC evicts hashA, the
second key scanned, not the first key scanned as the fallback rule states:
the zero-valued tracking variable cannot distinguish an unset fallback from
the all-zero key. -/
theorem C2_fallback_at_failing_input :
    (stZeroFirst.validSigs.map Prod.fst).head? = some zeroHash ∧
    (∀ k ∈ stZeroFirst.validSigs.map Prod.fst,
        bytesCompare k (randHashBytes gMax stZeroFirst.rngCount) ≠ Ordering.gt) ∧
    (stZeroFirst.Add gMax hashC 7 8).validSigs.map Prod.fst = [zeroHash, hashC] := by
  decide
